import Mathlib

/-!
Verification of the gridsim cellular-automaton engine (src/src/moore.rs and
src/src/neumann.rs) against its natural-language specification.

Shallow embedding conventions:
- Rust enums become Lean inductives, Rust structs become Lean structures.
- `usize` arithmetic is embedded as `Nat` (with `Int` where the source mixes
  in signed deltas); the theorems carry the side conditions under which the
  `Nat` expressions agree with wrap-free `usize` arithmetic.
- Methods taking `&self` become pure functions of the receiver value;
  methods taking `&mut self` become state-passing functions returning the
  new receiver.
- Code of the repository that is not under src/ (the `SquareGrid` basics
  and the `Direction` trait default in the crate root) is modelled from the
  spec; each such definition is marked `Modelled from the spec:`.
-/

/-! ## 4-way directions (src/src/moore.rs) -/

/-- The 4-way direction set, declared in source order Right, Up, Left, Down
(moore.rs lines 9-15). -/
inductive MooreDirection : Type
  | Right
  | Up
  | Left
  | Down
deriving DecidableEq, Fintype

/-- `MooreDirection::delta` (moore.rs lines 26-36): integer offset of each
direction, x growing rightwards and y growing downwards. -/
def MooreDirection.delta : MooreDirection → Int × Int
  | .Right => (1, 0)
  | .Up => (0, -1)
  | .Left => (-1, 0)
  | .Down => (0, 1)

/-- `From<usize> for MooreDirection` (moore.rs lines 38-48): 0,1,2,3 map to
Right, Up, Left, Down; every other integer panics, which the embedding
renders as `none`. -/
def MooreDirection.from_usize : Nat → Option MooreDirection
  | 0 => some .Right
  | 1 => some .Up
  | 2 => some .Left
  | 3 => some .Down
  | _ => none

/-- `Into<usize> for MooreDirection` (moore.rs lines 50-60). -/
def MooreDirection.to_usize : MooreDirection → Nat
  | .Right => 0
  | .Up => 1
  | .Left => 2
  | .Down => 3

/-- Modelled from the spec: the `Direction` trait's `inv` for the 4-way set
is not under src/ (moore.rs relies on the trait default from the crate
root); per spec section 4.1 it is the unique direction with the opposite
offset. -/
def MooreDirection.inv : MooreDirection → MooreDirection
  | .Right => .Left
  | .Up => .Down
  | .Left => .Right
  | .Down => .Up

/-- `MooreNeighbors<T>` (moore.rs lines 62-68): one value per 4-way
direction. -/
structure MooreNeighbors (T : Type) where
  right : T
  up : T
  left : T
  down : T
deriving DecidableEq

/-- `Index<MooreDirection> for MooreNeighbors<T>` (moore.rs lines 81-92). -/
def MooreNeighbors.index (n : MooreNeighbors T) : MooreDirection → T
  | .Right => n.right
  | .Up => n.up
  | .Left => n.left
  | .Down => n.down

/-- `MooreNeighbors::new` from the `Neighborhood` impl (moore.rs lines
113-121): builds the container by evaluating the supplier once per
direction in declaration order. -/
def MooreNeighbors.new (f : MooreDirection → T) : MooreNeighbors T :=
  { right := f .Right, up := f .Up, left := f .Left, down := f .Down }

/-! ## 8-way directions (src/src/neumann.rs) -/

namespace neumann

/-- The 8-way `Direction` enum (neumann.rs lines 7-17). -/
inductive Direction : Type
  | Right
  | UpRight
  | Up
  | UpLeft
  | Left
  | DownLeft
  | Down
  | DownRight
deriving DecidableEq, Fintype

/-- `Direction::inv` (neumann.rs lines 19-33). -/
def Direction.inv : Direction → Direction
  | .Right => .Left
  | .UpRight => .DownLeft
  | .Up => .Down
  | .UpLeft => .DownRight
  | .Left => .Right
  | .DownLeft => .UpRight
  | .Down => .Up
  | .DownRight => .UpLeft

/-- Modelled from the spec: the 8-way offsets are not given as a `delta`
function in src/, but spec section 4.1 says `delta(d)` returns the integer
offset of each direction; these are the offsets `from_grid_coord`
(neumann.rs lines 162-173) and `step` (lines 196-212) apply to the linear
index, x growing rightwards and y growing downwards. -/
def Direction.delta : Direction → Int × Int
  | .Right => (1, 0)
  | .UpRight => (1, -1)
  | .Up => (0, -1)
  | .UpLeft => (-1, -1)
  | .Left => (-1, 0)
  | .DownLeft => (-1, 1)
  | .Down => (0, 1)
  | .DownRight => (1, 1)

/-- `Neighbors<T>` (neumann.rs lines 35-45): one value per 8-way
direction. -/
structure Neighbors (T : Type) where
  right : T
  up_right : T
  up : T
  up_left : T
  left : T
  down_left : T
  down : T
  down_right : T
deriving DecidableEq

/-- `Index<Direction> for Neighbors<T>` (neumann.rs lines 47-62). -/
def Neighbors.index (n : Neighbors T) : Direction → T
  | .Right => n.right
  | .UpRight => n.up_right
  | .Up => n.up
  | .UpLeft => n.up_left
  | .Left => n.left
  | .DownLeft => n.down_left
  | .Down => n.down
  | .DownRight => n.down_right

end neumann

/-! ## Toroidal index arithmetic -/

/-- Modelled from the spec: `SquareGrid::delta_index` lives in the crate
root, not under src/; per spec section 4.2 the neighbor index is
`((i % width) + dx) mod width + width * (((i / width) + dy) mod height)`,
independent wraparound on each axis (`%` below is `Int.emod`, which yields
the mathematical nonnegative remainder for a positive modulus). -/
def delta_index (w h i : Nat) (delta : Int × Int) : Nat :=
  ((((i % w : Nat) : Int) + delta.1) % (w : Int)).toNat
    + w * ((((i / w : Nat) : Int) + delta.2) % (h : Int)).toNat

/-- The flat-modulo combined index `(size + i + dx + width*dy) mod size`:
the arithmetic that `SquareGrid::step` (neumann.rs lines 196-212, via the
closure `cs = |i| &self.cells[i % self.size()]`) and `from_grid_coord`
(lines 162-173, via `get_cell`) actually perform on the linear index. -/
def flat_index (w h i : Nat) (delta : Int × Int) : Nat :=
  ((((w * h : Nat) : Int) + (i : Int) + delta.1 + (w : Int) * delta.2)
      % ((w * h : Nat) : Int)).toNat

/-- The linear cell index read for each direction by
`SquareGrid::from_grid_coord` and `SquareGrid::step` (neumann.rs lines
162-173 and 196-212): the source `usize` expression, reduced modulo
`size` as `get_cell` and the closure `cs` do.  Subtraction is `Nat`
truncated subtraction, which agrees with `usize` whenever
`width + 1 ≤ size` (no underflow), i.e. whenever `height ≥ 2`. -/
def nstep_index (w h i : Nat) : neumann.Direction → Nat
  | .UpLeft => (w * h + i - 1 - w) % (w * h)
  | .Up => (w * h + i - w) % (w * h)
  | .UpRight => (w * h + i + 1 - w) % (w * h)
  | .Left => (w * h + i - 1) % (w * h)
  | .Right => (w * h + i + 1) % (w * h)
  | .DownLeft => (w * h + i - 1 + w) % (w * h)
  | .Down => (w * h + i + w) % (w * h)
  | .DownRight => (w * h + i + 1 + w) % (w * h)

/-! ## Migration protocol (src/src/moore.rs lines 160-178)

The move store `moves : Nat → MooreNeighbors M` stands for
`get_move_neighbors`, which is not under src/: modelled from the spec,
`get_move_neighbors(ix)` returns the outgoing payloads the step phase
stored for sender `ix`, one per direction. -/

/-- `TakeMoveDirection::take_move_direction` (moore.rs lines 160-168):
`transmute_copy(&self.get_move_neighbors(ix)[dir])`, a bit-for-bit copy of
the payload sender `ix` stored toward `dir`. -/
def take_move_direction (moves : Nat → MooreNeighbors M) (ix : Nat)
    (dir : MooreDirection) : M :=
  (moves ix).index dir

/-- `TakeMoveNeighbors::take_move_neighbors` (moore.rs lines 170-178):
`MooreNeighbors::new(|dir| self.take_move_direction(self.delta_index(ix, dir.delta()), dir.inv()))`. -/
def take_move_neighbors (w h : Nat) (moves : Nat → MooreNeighbors M)
    (ix : Nat) : MooreNeighbors M :=
  MooreNeighbors.new
    (fun dir => take_move_direction moves (delta_index w h ix dir.delta) dir.inv)

/-- The `&self` call `take_move_direction` in state-passing form: the
receiver is taken by shared reference and `transmute_copy` only reads, so
the call returns the payload together with the unchanged move store. -/
def take_move_direction_call (moves : Nat → MooreNeighbors M) (ix : Nat)
    (dir : MooreDirection) : M × (Nat → MooreNeighbors M) :=
  (take_move_direction moves ix dir, moves)

/-! ## The grid and the two-phase cycle (src/src/neumann.rs lines 135-232) -/

/-- `SquareGrid` storage: `width`, `height`, the cell buffer and the diff
buffer (spec section 3; the struct itself is in the crate root, its shape
is fixed by the field accesses in neumann.rs). -/
structure SquareGrid (C D : Type) where
  width : Nat
  height : Nat
  cells : List C
  diffs : List D
deriving DecidableEq

/-- `SquareGrid::size` = `width * height` (spec section 3). -/
def SquareGrid.size (g : SquareGrid C D) : Nat :=
  g.width * g.height

/-- Modelled from the spec: `get_cell` lives in the crate root; per spec
sections 3 and 4.2 it is valid for any integer index with wraparound, and
the closure `cs = |i| &self.cells[i % self.size()]` in `SquareGrid::step`
(neumann.rs line 192) fixes the arithmetic as reduction modulo `size`. -/
def SquareGrid.get_cell [Inhabited C] (g : SquareGrid C D) (i : Nat) : C :=
  g.cells.getD (i % g.size) default

/-- `SquareGrid::from_grid_coord` (neumann.rs lines 162-173): the 8-way
neighborhood of linear index `i`, each field read through `get_cell` at
the source's `usize` expression. -/
def SquareGrid.from_grid_coord [Inhabited C] (g : SquareGrid C D) (i : Nat) :
    neumann.Neighbors C :=
  { up_left := g.get_cell (g.size + i - 1 - g.width)
    up := g.get_cell (g.size + i - g.width)
    up_right := g.get_cell (g.size + i + 1 - g.width)
    left := g.get_cell (g.size + i - 1)
    right := g.get_cell (g.size + i + 1)
    down_left := g.get_cell (g.size + i - 1 + g.width)
    down := g.get_cell (g.size + i + g.width)
    down_right := g.get_cell (g.size + i + 1 + g.width) }

/-- One unit of step-phase work for index `i` (neumann.rs lines 195-214):
the 3x3 block of cell reads around `i` (center `cs(size + i)`), fed to
`S::step`.  `stepf` is the simulation's `step`, returning the diff and the
outgoing move (here `Unit`, as in the `Rule` adapter's `Sim` impl). -/
def SquareGrid.step_cell [Inhabited C] (stepf : C → neumann.Neighbors C → D × Unit)
    (g : SquareGrid C D) (i : Nat) : D × Unit :=
  stepf (g.get_cell (g.size + i))
    { up_left := g.get_cell (g.size + i - 1 - g.width)
      up := g.get_cell (g.size + i - g.width)
      up_right := g.get_cell (g.size + i + 1 - g.width)
      left := g.get_cell (g.size + i - 1)
      right := g.get_cell (g.size + i + 1)
      down_left := g.get_cell (g.size + i - 1 + g.width)
      down := g.get_cell (g.size + i + g.width)
      down_right := g.get_cell (g.size + i + 1 + g.width) }

/-- `SquareGrid::step` (neumann.rs lines 186-217): replaces the diff
buffer with the diff computed for every index `0..size` from the current
cell buffer; no cell is written. -/
def SquareGrid.step_pass [Inhabited C]
    (stepf : C → neumann.Neighbors C → D × Unit) (g : SquareGrid C D) :
    SquareGrid C D :=
  { g with diffs := (List.range g.size).map (fun i => (g.step_cell stepf i).1) }

/-- `SquareGrid::update` (neumann.rs lines 219-232): swaps the diff buffer
out (leaving `self.diffs` at `Default::default()`, the empty vector), then
for each index in the zip of cells with the taken diffs commits
`S::update(cell, diff, ())`; cells beyond the zip are untouched. -/
def SquareGrid.update_pass (updf : C → D → Unit → C) (g : SquareGrid C D) :
    SquareGrid C D :=
  { g with
      cells := List.zipWith (fun c d => updf c d ()) g.cells g.diffs
        ++ g.cells.drop g.diffs.length
      diffs := [] }

/-- `SquareGrid::cycle` (neumann.rs lines 175-184): the step pass followed
by the update pass. -/
def SquareGrid.cycle [Inhabited C] (stepf : C → neumann.Neighbors C → D × Unit)
    (updf : C → D → Unit → C) (g : SquareGrid C D) : SquareGrid C D :=
  SquareGrid.update_pass updf (SquareGrid.step_pass stepf g)

/-! ## The Rule adapter (neumann.rs lines 135-156) -/

/-- `Sim::step` of the blanket `impl Sim for T where T: Rule` (neumann.rs
lines 147-150): `(Self::rule(cell.clone(), neighbors), Default::default())`. -/
def rule_step (r : C → neumann.Neighbors C → C) (cell : C)
    (neighbors : neumann.Neighbors C) : C × Unit :=
  (r cell neighbors, ())

/-- `Sim::update` of the blanket `impl Sim for T where T: Rule` (neumann.rs
lines 152-155): `*cell = diff`. -/
def rule_update (cell : C) (diff : C) (m : Unit) : C :=
  diff

/-! ## Arithmetic helper lemmas -/

theorem emod_toNat_lt (w : Nat) (hw : 0 < w) (a : Int) :
    (a % (w : Int)).toNat < w := by
  have h0 : 0 ≤ a % (w : Int) := Int.emod_nonneg a (by exact_mod_cast hw.ne')
  have h1 : a % (w : Int) < w := Int.emod_lt_of_pos a (by exact_mod_cast hw)
  omega

theorem emod_toNat_cast (w : Nat) (hw : 0 < w) (a : Int) :
    (((a % (w : Int)).toNat : Nat) : Int) = a % (w : Int) := by
  have h0 : 0 ≤ a % (w : Int) := Int.emod_nonneg a (by exact_mod_cast hw.ne')
  omega

theorem add_mul_lt_mul (a b w h : Nat) (ha : a < w) (hb : b < h) :
    a + w * b < w * h := by
  have h1 : a + w * b < w * (b + 1) := by
    rw [Nat.mul_succ]
    omega
  have h2 : w * (b + 1) ≤ w * h := Nat.mul_le_mul_left w hb
  omega

theorem delta_index_lt (w h : Nat) (hw : 0 < w) (hh : 0 < h) (i : Nat)
    (delta : Int × Int) : delta_index w h i delta < w * h := by
  unfold delta_index
  exact add_mul_lt_mul _ _ _ _ (emod_toNat_lt w hw _) (emod_toNat_lt h hh _)

theorem delta_index_round (w h : Nat) (hw : 0 < w) (hh : 0 < h) (i : Nat)
    (hi : i < w * h) (dx dy : Int) :
    delta_index w h (delta_index w h i (dx, dy)) (-dx, -dy) = i := by
  have hxw : i % w < w := Nat.mod_lt i hw
  have hyh : i / w < h := Nat.div_lt_of_lt_mul hi
  set A : Nat := ((((i % w : Nat) : Int) + dx) % (w : Int)).toNat with hA
  set B : Nat := ((((i / w : Nat) : Int) + dy) % (h : Int)).toNat with hB
  have hAlt : A < w := emod_toNat_lt w hw _
  have hBlt : B < h := emod_toNat_lt h hh _
  have hAc : ((A : Nat) : Int) = (((i % w : Nat) : Int) + dx) % (w : Int) :=
    emod_toNat_cast w hw _
  have hBc : ((B : Nat) : Int) = (((i / w : Nat) : Int) + dy) % (h : Int) :=
    emod_toNat_cast h hh _
  have hfirst : delta_index w h i (dx, dy) = A + w * B := rfl
  rw [hfirst]
  have hmodw : (A + w * B) % w = A := by
    rw [Nat.add_mul_mod_self_left]
    exact Nat.mod_eq_of_lt hAlt
  have hdivw : (A + w * B) / w = B := by
    rw [Nat.add_mul_div_left A B hw, Nat.div_eq_of_lt hAlt, Nat.zero_add]
  show (((((A + w * B) % w : Nat) : Int) + -dx) % (w : Int)).toNat
      + w * (((((A + w * B) / w : Nat) : Int) + -dy) % (h : Int)).toNat = i
  rw [hmodw, hdivw, hAc, hBc]
  have hx : (((((i % w : Nat) : Int) + dx) % (w : Int) + -dx) % (w : Int))
      = ((i % w : Nat) : Int) := by
    rw [Int.emod_add_emod, add_neg_cancel_right]
    exact Int.emod_eq_of_lt (by exact_mod_cast Nat.zero_le _) (by exact_mod_cast hxw)
  have hy : (((((i / w : Nat) : Int) + dy) % (h : Int) + -dy) % (h : Int))
      = ((i / w : Nat) : Int) := by
    rw [Int.emod_add_emod, add_neg_cancel_right]
    exact Int.emod_eq_of_lt (by exact_mod_cast Nat.zero_le _) (by exact_mod_cast hyh)
  rw [hx, hy, Int.toNat_natCast, Int.toNat_natCast]
  exact Nat.mod_add_div i w

theorem delta_index_round_pair (w h : Nat) (hw : 0 < w) (hh : 0 < h) (i : Nat)
    (hi : i < w * h) (p : Int × Int) :
    delta_index w h (delta_index w h i p) (-p.1, -p.2) = i :=
  delta_index_round w h hw hh i hi p.1 p.2

theorem delta_index_round_pair_rev (w h : Nat) (hw : 0 < w) (hh : 0 < h)
    (s : Nat) (hs : s < w * h) (p : Int × Int) :
    delta_index w h (delta_index w h s (-p.1, -p.2)) p = s := by
  have := delta_index_round w h hw hh s hs (-p.1) (-p.2)
  simpa using this

theorem delta_index_unique (w h : Nat) (hw : 0 < w) (hh : 0 < h)
    (j s : Nat) (hj : j < w * h) (p : Int × Int)
    (hjs : delta_index w h j p = s) :
    j = delta_index w h s (-p.1, -p.2) := by
  have := delta_index_round_pair w h hw hh j hj p
  rw [hjs] at this
  exact this.symm

/-! ## Direction facts -/

theorem moore_inv_inv (d : MooreDirection) : d.inv.inv = d := by
  cases d <;> rfl

theorem moore_inv_delta (d : MooreDirection) :
    d.inv.delta = (-d.delta.1, -d.delta.2) := by
  cases d <;> rfl

theorem neumann_inv_inv (d : neumann.Direction) : d.inv.inv = d := by
  cases d <;> rfl

theorem neumann_inv_delta (d : neumann.Direction) :
    d.inv.delta = (-d.delta.1, -d.delta.2) := by
  cases d <;> rfl

theorem moore_index_new (f : MooreDirection → T) (d : MooreDirection) :
    (MooreNeighbors.new f).index d = f d := by
  cases d <;> rfl

/-- C5: for every grid of positive size `w*h` and every index `i < w*h`
(including edge and corner indices), applying the neighbor-index
computation with `delta(d)` and then with `delta(inv(d))` returns the
original index, for every direction of the 4-way set
(`MooreDirection::delta`, moore.rs lines 26-36) and of the 8-way set
(`Direction::inv`, neumann.rs lines 19-33). -/
theorem neighbor_round_trip (w h i : Nat) (d4 : MooreDirection)
    (d8 : neumann.Direction) (hw : 0 < w) (hh : 0 < h) (hi : i < w * h) :
    delta_index w h (delta_index w h i d4.delta) d4.inv.delta = i ∧
    delta_index w h (delta_index w h i d8.delta) d8.inv.delta = i := by
  constructor
  · rw [moore_inv_delta]
    exact delta_index_round_pair w h hw hh i hi d4.delta
  · rw [neumann_inv_delta]
    exact delta_index_round_pair w h hw hh i hi d8.delta

/-- Witness for C5 on a concrete 3x3 grid at the corner index 8. -/
theorem neighbor_round_trip_witness :
    delta_index 3 3 (delta_index 3 3 8 MooreDirection.Right.delta)
        MooreDirection.Right.inv.delta = 8 ∧
    delta_index 3 3 (delta_index 3 3 8 neumann.Direction.DownRight.delta)
        neumann.Direction.DownRight.inv.delta = 8 :=
  neighbor_round_trip 3 3 8 MooreDirection.Right neumann.Direction.DownRight
    (by decide) (by decide) (by decide)

/-- C8: when cell `ix` assembles its incoming migration
(`take_move_neighbors`, moore.rs lines 170-178), it obtains along each
direction `d` exactly the payload the neighbor at
`delta_index(ix, delta(d))` stored toward direction `inv(d)`, read through
`take_move_direction` (moore.rs lines 160-168). -/
theorem take_move_neighbors_inverse (M : Type) (moves : Nat → MooreNeighbors M)
    (w h ix : Nat) (d : MooreDirection) :
    (take_move_neighbors w h moves ix).index d
      = take_move_direction moves (delta_index w h ix d.delta) d.inv := by
  cases d <;> rfl

/-- C9: `From<usize> for MooreDirection` (moore.rs lines 38-48) succeeds
exactly on 0..3, mapping in declaration order Right, Up, Left, Down, and
is fatal (`none`, modelling the panic) on every other integer. -/
theorem from_usize_spec (n : Nat) :
    MooreDirection.from_usize n
      = [some MooreDirection.Right, some MooreDirection.Up,
          some MooreDirection.Left, some MooreDirection.Down].getD n none := by
  match n with
  | 0 => rfl
  | 1 => rfl
  | 2 => rfl
  | 3 => rfl
  | (m + 4) => rfl

/-- C10: `take_move_direction` (moore.rs lines 160-168) takes `&self` and
copies the payload with `transmute_copy`, so in state-passing form the
move store is returned unchanged and a second call with the same index and
direction yields the identical payload. -/
theorem take_move_direction_no_mutation (M : Type)
    (moves : Nat → MooreNeighbors M) (ix : Nat) (dir : MooreDirection) :
    (take_move_direction_call moves ix dir).2 = moves ∧
    (take_move_direction_call (take_move_direction_call moves ix dir).2 ix dir).1
      = (take_move_direction_call moves ix dir).1 := by
  exact ⟨rfl, rfl⟩

/-! ## C1: exactly-once observation of migration payloads

During the update phase every destination cell `j` calls
`take_move_neighbors(j)`, which for each direction `e` reads the payload
slot of sender `delta_index(j, delta(e))` at direction `inv(e)`
(moore.rs line 176).  So the payload sender `s` emitted toward direction
`d` is observed once for every pair `(j, e)` with
`delta_index w h j e.delta = s` and `e.inv = d`. -/

/-- C1: over the whole grid, each payload slot `(s, d)` is read by exactly
one `(destination, examined direction)` pair per cycle — not zero and not
more than one: the observation count of the `take_move_neighbors`
protocol equals 1.  The first conjunct records that the counted pairs are
precisely the reads `take_move_neighbors` performs. -/
theorem payload_taken_exactly_once (M : Type) (moves : Nat → MooreNeighbors M)
    (w h s j : Nat) (d e : MooreDirection) (hw : 0 < w) (hh : 0 < h)
    (hs : s < w * h) :
    (take_move_neighbors w h moves j).index e
      = take_move_direction moves (delta_index w h j e.delta) e.inv ∧
    (Finset.filter
        (fun p : Nat × MooreDirection =>
          delta_index w h p.1 p.2.delta = s ∧ p.2.inv = d)
        (Finset.range (w * h) ×ˢ Finset.univ)).card = 1 := by
  refine ⟨by cases e <;> rfl, ?_⟩
  have hinv : d.inv.delta = (-d.delta.1, -d.delta.2) := moore_inv_delta d
  set j0 : Nat := delta_index w h s (-d.inv.delta.1, -d.inv.delta.2) with hj0
  rw [Finset.card_eq_one]
  refine ⟨(j0, d.inv), ?_⟩
  apply Finset.eq_singleton_iff_unique_mem.mpr
  constructor
  · rw [Finset.mem_filter]
    refine ⟨?_, ?_, moore_inv_inv d⟩
    · rw [Finset.mem_product, Finset.mem_range]
      exact ⟨delta_index_lt w h hw hh s _, Finset.mem_univ _⟩
    · rw [hj0]
      exact delta_index_round_pair_rev w h hw hh s hs d.inv.delta
  · rintro ⟨j', e'⟩ hp
    rw [Finset.mem_filter, Finset.mem_product, Finset.mem_range] at hp
    obtain ⟨⟨hjlt, -⟩, hds, hinv'⟩ := hp
    have he : e' = d.inv := by
      rw [← hinv', moore_inv_inv]
    subst he
    have hj' : j' = delta_index w h s (-d.inv.delta.1, -d.inv.delta.2) :=
      delta_index_unique w h hw hh j' s hjlt d.inv.delta hds
    rw [Prod.mk.injEq]
    exact ⟨hj', rfl⟩

/-- Witness for C1 on a concrete 2x3 grid, payload slot (4, Up). -/
theorem payload_taken_exactly_once_witness :
    (take_move_neighbors 2 3 (fun _ => MooreNeighbors.new (fun _ => (0 : Nat))) 1).index
        MooreDirection.Down
      = take_move_direction (fun _ => MooreNeighbors.new (fun _ => (0 : Nat)))
          (delta_index 2 3 1 MooreDirection.Down.delta) MooreDirection.Down.inv ∧
    (Finset.filter
        (fun p : Nat × MooreDirection =>
          delta_index 2 3 p.1 p.2.delta = 4 ∧ p.2.inv = MooreDirection.Up)
        (Finset.range (2 * 3) ×ˢ Finset.univ)).card = 1 :=
  payload_taken_exactly_once Nat (fun _ => MooreNeighbors.new (fun _ => 0))
    2 3 4 1 MooreDirection.Up MooreDirection.Down
    (by decide) (by decide) (by decide)

/-! ## C2: the neumann neighbor fetch uses a flat modulo, not per-axis wrap -/

theorem toNat_emod_eq_natmod (s : Nat) (t : Int) (n : Nat)
    (ht : t = (n : Int)) : (t % (s : Int)).toNat = n % s := by
  rw [ht, ← Int.natCast_mod, Int.toNat_natCast]

/-- Every index read by the neumann step/from_grid_coord equals the flat
modulo `(size + i + dx + width*dy) mod size` of the combined index
(`height ≥ 2` keeps the source's `usize` subtractions from
underflowing). -/
theorem nstep_eq_flat (w h i : Nat) (hw : 0 < w) (hh : 2 ≤ h)
    (d : neumann.Direction) :
    nstep_index w h i d = flat_index w h i d.delta := by
  have hws : w + 1 ≤ w * h := by
    have h2 : w * 2 ≤ w * h := Nat.mul_le_mul_left w hh
    omega
  cases d <;>
    simp only [nstep_index, flat_index, neumann.Direction.delta] <;>
    (generalize hgen : w * h = s at hws ⊢
     exact (toNat_emod_eq_natmod s _ _ (by omega)).symm)

theorem int_block_emod (w h : Nat) (hw : 0 < w) (hh : 0 < h) (a b : Int)
    (ha0 : 0 ≤ a) (haw : a < (w : Int)) :
    (a + (w : Int) * b) % ((w : Int) * (h : Int))
      = a + (w : Int) * (b % (h : Int)) := by
  have hhz : ((h : Int)) ≠ 0 := by exact_mod_cast hh.ne'
  have hwz : (0 : Int) < (w : Int) := by exact_mod_cast hw
  have hhz2 : (0 : Int) < (h : Int) := by exact_mod_cast hh
  have hb : b % (h : Int) + (h : Int) * (b / (h : Int)) = b := Int.emod_add_ediv b h
  have h1 : a + (w : Int) * b
      = (a + (w : Int) * (b % (h : Int)))
        + ((w : Int) * (h : Int)) * (b / (h : Int)) := by
    linear_combination (w : Int) * hb.symm
  rw [h1, Int.add_mul_emod_self_left]
  have hm0 : 0 ≤ b % (h : Int) := Int.emod_nonneg b hhz
  have hmh : b % (h : Int) < (h : Int) := Int.emod_lt_of_pos b hhz2
  apply Int.emod_eq_of_lt
  · exact add_nonneg ha0 (mul_nonneg hwz.le hm0)
  · have h2 : (w : Int) * (b % (h : Int)) ≤ (w : Int) * ((h : Int) - 1) :=
      mul_le_mul_of_nonneg_left (by omega) hwz.le
    have h3 : (w : Int) * ((h : Int) - 1) = (w : Int) * (h : Int) - (w : Int) := by
      ring
    linarith

theorem int_mul_block_emod (w h : Nat) (hw : 0 < w) (hh : 0 < h) (b : Int) :
    ((w : Int) * b) % ((w : Int) * (h : Int)) = (w : Int) * (b % (h : Int)) := by
  have := int_block_emod w h hw hh 0 b le_rfl (by exact_mod_cast hw)
  simpa using this

theorem toNat_natCast_mul (w : Nat) (x : Int) (hx : 0 ≤ x) :
    ((w : Int) * x).toNat = w * x.toNat := by
  obtain ⟨n, rfl⟩ := Int.eq_ofNat_of_zero_le hx
  rw [← Nat.cast_mul, Int.toNat_natCast, Int.toNat_natCast]

theorem toNat_add_natCast_mul (a w : Nat) (x : Int) (hx : 0 ≤ x) :
    (((a : Nat) : Int) + (w : Int) * x).toNat = a + w * x.toNat := by
  obtain ⟨n, rfl⟩ := Int.eq_ofNat_of_zero_le hx
  rw [← Nat.cast_mul, ← Nat.cast_add, Int.toNat_natCast, Int.toNat_natCast]

theorem flat_ne_axis_cross_right (w h y : Nat) (dy : Int) (hw : 0 < w)
    (hh : 2 ≤ h) :
    flat_index w h (w - 1 + w * y) (1, dy)
      ≠ delta_index w h (w - 1 + w * y) (1, dy) := by
  have hh0 : 0 < h := by omega
  have hhz : ((h : Int)) ≠ 0 := by exact_mod_cast hh0.ne'
  have hflat : flat_index w h (w - 1 + w * y) (1, dy)
      = w * (((y : Int) + dy + 1) % (h : Int)).toNat := by
    simp only [flat_index]
    have hc : ((w - 1 + w * y : Nat) : Int)
        = (w : Int) - 1 + (w : Int) * (y : Int) := by
      push_cast [Nat.cast_sub (by omega : 1 ≤ w)]
      ring
    have hcast : ((w * h : Nat) : Int) = (w : Int) * (h : Int) := by push_cast; ring
    have hE : (w : Int) * (h : Int) + ((w - 1 + w * y : Nat) : Int) + 1
        + (w : Int) * dy
        = (w : Int) * ((y : Int) + dy + 1) + ((w : Int) * (h : Int)) * 1 := by
      rw [hc]
      ring
    rw [hcast, hE, Int.add_mul_emod_self_left, int_mul_block_emod w h hw hh0]
    exact toNat_natCast_mul w _ (Int.emod_nonneg _ hhz)
  have hx : (w - 1 + w * y) % w = w - 1 := by
    rw [Nat.add_mul_mod_self_left]
    exact Nat.mod_eq_of_lt (by omega)
  have hyq : (w - 1 + w * y) / w = y := by
    rw [Nat.add_mul_div_left _ _ hw, Nat.div_eq_of_lt (by omega), Nat.zero_add]
  have hdelta : delta_index w h (w - 1 + w * y) (1, dy)
      = w * (((y : Int) + dy) % (h : Int)).toNat := by
    simp only [delta_index]
    rw [hx, hyq]
    have hone : ((w - 1 : Nat) : Int) + 1 = (w : Int) := by
      push_cast [Nat.cast_sub (by omega : 1 ≤ w)]
      ring
    rw [hone, Int.emod_self]
    simp
  rw [hflat, hdelta]
  intro heq
  have hK : (((y : Int) + dy + 1) % (h : Int)).toNat
      = (((y : Int) + dy) % (h : Int)).toNat :=
    Nat.eq_of_mul_eq_mul_left hw heq
  have h1 := Int.emod_nonneg ((y : Int) + dy + 1) hhz
  have h2 := Int.emod_nonneg ((y : Int) + dy) hhz
  have hKi : ((y : Int) + dy + 1) % (h : Int) = ((y : Int) + dy) % (h : Int) := by
    rw [← Int.toNat_of_nonneg h1, ← Int.toNat_of_nonneg h2, hK]
  have hsub := Int.sub_emod ((y : Int) + dy + 1) ((y : Int) + dy) (h : Int)
  rw [hKi, sub_self, Int.zero_emod] at hsub
  have h3 : ((y : Int) + dy + 1) - ((y : Int) + dy) = 1 := by ring
  rw [h3] at hsub
  have h4 : ((1 : Int)) % (h : Int) = 1 :=
    Int.emod_eq_of_lt (by omega) (by exact_mod_cast hh)
  omega

theorem flat_ne_axis_cross_left (w h y : Nat) (dy : Int) (hw : 0 < w)
    (hh : 2 ≤ h) :
    flat_index w h (w * y) (-1, dy) ≠ delta_index w h (w * y) (-1, dy) := by
  have hh0 : 0 < h := by omega
  have hhz : ((h : Int)) ≠ 0 := by exact_mod_cast hh0.ne'
  have hwm : ((w - 1 : Nat) : Int) = (w : Int) - 1 := by
    push_cast [Nat.cast_sub (by omega : 1 ≤ w)]
    ring
  have hflat : flat_index w h (w * y) (-1, dy)
      = (w - 1) + w * (((y : Int) + dy - 1) % (h : Int)).toNat := by
    simp only [flat_index]
    have hcast : ((w * h : Nat) : Int) = (w : Int) * (h : Int) := by push_cast; ring
    have hE : (w : Int) * (h : Int) + ((w * y : Nat) : Int) + (-1)
        + (w : Int) * dy
        = (((w - 1 : Nat) : Int) + (w : Int) * ((y : Int) + dy - 1))
          + ((w : Int) * (h : Int)) * 1 := by
      rw [hwm]
      push_cast
      ring
    rw [hcast, hE, Int.add_mul_emod_self_left,
      int_block_emod w h hw hh0 _ _ (by omega) (by omega)]
    exact toNat_add_natCast_mul (w - 1) w _ (Int.emod_nonneg _ hhz)
  have hx : (w * y) % w = 0 := by
    simp [Nat.mul_mod_right]
  have hyq : (w * y) / w = y := by
    rw [Nat.mul_div_cancel_left y hw]
  have hdelta : delta_index w h (w * y) (-1, dy)
      = (w - 1) + w * (((y : Int) + dy) % (h : Int)).toNat := by
    simp only [delta_index]
    rw [hx, hyq]
    have hneg : (((0 : Nat) : Int) + (-1)) % (w : Int) = ((w - 1 : Nat) : Int) := by
      have hstep : (((w - 1 : Nat) : Int) + (w : Int) * (-1)) % (w : Int)
          = ((w - 1 : Nat) : Int) % (w : Int) :=
        Int.add_mul_emod_self_left _ _ _
      have he : (((0 : Nat) : Int) + (-1))
          = ((w - 1 : Nat) : Int) + (w : Int) * (-1) := by
        rw [hwm]
        ring
      rw [he, hstep]
      apply Int.emod_eq_of_lt
      · rw [hwm]; omega
      · rw [hwm]; omega
    rw [hneg, Int.toNat_natCast]
  rw [hflat, hdelta]
  intro heq
  have hK : (((y : Int) + dy - 1) % (h : Int)).toNat
      = (((y : Int) + dy) % (h : Int)).toNat := by
    have := Nat.add_left_cancel heq
    exact Nat.eq_of_mul_eq_mul_left hw this
  have h1 := Int.emod_nonneg ((y : Int) + dy - 1) hhz
  have h2 := Int.emod_nonneg ((y : Int) + dy) hhz
  have hKi : ((y : Int) + dy - 1) % (h : Int) = ((y : Int) + dy) % (h : Int) := by
    rw [← Int.toNat_of_nonneg h1, ← Int.toNat_of_nonneg h2, hK]
  have hsub := Int.sub_emod ((y : Int) + dy) ((y : Int) + dy - 1) (h : Int)
  rw [hKi, sub_self, Int.zero_emod] at hsub
  have h3 : ((y : Int) + dy) - ((y : Int) + dy - 1) = 1 := by ring
  rw [h3] at hsub
  have h4 : ((1 : Int)) % (h : Int) = 1 :=
    Int.emod_eq_of_lt (by omega) (by exact_mod_cast hh)
  omega

/-- C2 counterexample: on a 3x3 grid at index 2 (right edge of row 0), the
Right neighbor the neumann step pass reads is index `(9+2+1) % 9 = 3` (the
flat modulo rolls into the next row), not the per-axis value
`((2+1) mod 3) + 3*0 = 0` the claim asserts. -/
theorem neumann_neighbor_index_not_per_axis :
    nstep_index 3 3 2 neumann.Direction.Right
      ≠ delta_index 3 3 2 neumann.Direction.Right.delta := by
  decide

/-- C2 amended: the neighbor index used by the neumann neighbor lookups
(`from_grid_coord`, neumann.rs lines 162-173, and `step`, lines 186-217)
equals the flat modulo `(size + i + dx + width*dy) mod size` of the
combined index, and that differs from the per-axis formula
`((i mod w) + dx) mod w + w * ((i / w + dy) mod h)` whenever the delta
crosses a row boundary (for grids with `h ≥ 2`, where the source's
`usize` arithmetic is underflow-free). -/
theorem neumann_neighbor_index_flat_modulo (C D : Type) [Inhabited C]
    (g : SquareGrid C D) (w h i : Nat) (d : neumann.Direction)
    (hw : 0 < w) (hh : 2 ≤ h) (hi : i < w * h) :
    (g.from_grid_coord i).index d
      = g.cells.getD (nstep_index g.width g.height i d) default ∧
    nstep_index w h i d = flat_index w h i d.delta ∧
    ((((i % w : Nat) : Int) + d.delta.1 < 0
        ∨ (w : Int) ≤ ((i % w : Nat) : Int) + d.delta.1) →
      nstep_index w h i d ≠ delta_index w h i d.delta) := by
  refine ⟨by cases d <;> rfl, nstep_eq_flat w h i hw hh d, ?_⟩
  intro hcross
  rw [nstep_eq_flat w h i hw hh d]
  have hxw : i % w < w := Nat.mod_lt i hw
  have hmd : i % w + w * (i / w) = i := Nat.mod_add_div i w
  cases d <;> simp only [neumann.Direction.delta] at hcross ⊢
  case Up | Down => omega
  case Right | UpRight | DownRight =>
    have hxeq : i % w = w - 1 := by omega
    set y := i / w with hy
    have hi2 : i = w - 1 + w * y := by omega
    rw [hi2]
    exact flat_ne_axis_cross_right w h y _ hw hh
  case Left | UpLeft | DownLeft =>
    have hxeq : i % w = 0 := by omega
    set y := i / w with hy
    have hi2 : i = w * y := by omega
    rw [hi2]
    exact flat_ne_axis_cross_left w h y _ hw hh

/-- Witness for C2 amended, on a 3x3 grid at index 2 with direction Right
(a delta that crosses the row boundary). -/
theorem neumann_neighbor_index_flat_modulo_witness :
    ((SquareGrid.mk 3 3 [10, 11, 12, 13, 14, 15, 16, 17, 18]
        ([] : List Nat)).from_grid_coord 2).index neumann.Direction.Right
      = (SquareGrid.mk 3 3 [10, 11, 12, 13, 14, 15, 16, 17, 18]
          ([] : List Nat)).cells.getD
          (nstep_index 3 3 2 neumann.Direction.Right) default ∧
    nstep_index 3 3 2 neumann.Direction.Right
      = flat_index 3 3 2 neumann.Direction.Right.delta ∧
    ((((2 % 3 : Nat) : Int) + neumann.Direction.Right.delta.1 < 0
        ∨ (3 : Int) ≤ ((2 % 3 : Nat) : Int) + neumann.Direction.Right.delta.1) →
      nstep_index 3 3 2 neumann.Direction.Right
        ≠ delta_index 3 3 2 neumann.Direction.Right.delta) :=
  neumann_neighbor_index_flat_modulo Nat Nat
    (SquareGrid.mk 3 3 [10, 11, 12, 13, 14, 15, 16, 17, 18] [])
    3 3 2 neumann.Direction.Right (by decide) (by decide) (by decide)

/-! ## List helper lemmas for the cycle passes -/

theorem list_getD_map_range (f : Nat → A) (n i : Nat) (hi : i < n) (d : A) :
    ((List.range n).map f).getD i d = f i := by
  have h1 : i < ((List.range n).map f).length := by simpa using hi
  rw [List.getD_eq_getElem _ _ h1, List.getElem_map, List.getElem_range]

theorem list_zipWith_getD (f : C → D → C) (cs : List C) (ds : List D)
    (i : Nat) (hi : i < cs.length) (hlen : cs.length = ds.length)
    (dc : C) (dd : D) (de : C) :
    (List.zipWith f cs ds).getD i de = f (cs.getD i dc) (ds.getD i dd) := by
  have h1 : i < (List.zipWith f cs ds).length := by
    rw [List.length_zipWith]
    omega
  rw [List.getD_eq_getElem _ _ h1, List.getElem_zipWith,
    List.getD_eq_getElem cs dc hi, List.getD_eq_getElem ds dd (by omega)]

theorem list_zipWith_snd (cs ds : List A) (hlen : cs.length = ds.length) :
    List.zipWith (fun _ d => d) cs ds = ds := by
  induction cs generalizing ds with
  | nil =>
    cases ds with
    | nil => rfl
    | cons d ds => simp at hlen
  | cons c cs ih =>
    cases ds with
    | nil => simp at hlen
    | cons d ds =>
      simp only [List.zipWith]
      rw [ih ds (by simpa using hlen)]

theorem list_drop_of_length_le (cs : List A) (n : Nat) (h : cs.length ≤ n) :
    cs.drop n = [] := by
  apply List.eq_nil_of_length_eq_zero
  rw [List.length_drop]
  omega

/-- The center read `cs(size + i)` of the step pass is cell `i`. -/
theorem get_cell_center (C D : Type) [Inhabited C] (g : SquareGrid C D)
    (i : Nat) (hi : i < g.size) (hlen : g.cells.length = g.size) :
    g.get_cell (g.size + i) = g.cells.getD i default := by
  unfold SquareGrid.get_cell
  rw [Nat.add_mod_left, Nat.mod_eq_of_lt hi]

/-! ## C4: buffer lengths across a cycle -/

/-- C4 counterexample: after one `cycle()` on a 1x1 grid whose buffers
start at the common length 1, the diff buffer has been swapped out for
`Default::default()` and has length 0 while the cell buffer has length 1,
so the two buffers do not have equal length at every point in the grid's
lifetime. -/
theorem diff_buffer_emptied_after_cycle :
    ¬ ((SquareGrid.cycle (fun (c : Nat) (_ : neumann.Neighbors Nat) => (c, ()))
          (fun _ d _ => d) (SquareGrid.mk 1 1 [0] [0])).diffs.length
        = (SquareGrid.cycle (fun (c : Nat) (_ : neumann.Neighbors Nat) => (c, ()))
            (fun _ d _ => d) (SquareGrid.mk 1 1 [0] [0])).cells.length) := by
  decide

/-- C4 amended: starting from a cell buffer of length `size`, the step
pass leaves the cell buffer at length `size` and fills the diff buffer to
length `size` (so the buffers have equal length at the barrier between
the phases), but the update pass consumes the diff buffer: after a full
`cycle()` the cell buffer still has length `size` while the diff buffer
is empty. -/
theorem buffer_lengths_through_cycle (C D : Type) [Inhabited C]
    (stepf : C → neumann.Neighbors C → D × Unit) (updf : C → D → Unit → C)
    (g : SquareGrid C D) (hlen : g.cells.length = g.size) :
    (SquareGrid.step_pass stepf g).cells.length = g.size ∧
    (SquareGrid.step_pass stepf g).diffs.length = g.size ∧
    (SquareGrid.cycle stepf updf g).cells.length = g.size ∧
    (SquareGrid.cycle stepf updf g).diffs = [] := by
  refine ⟨hlen, by simp [SquareGrid.step_pass], ?_, rfl⟩
  simp only [SquareGrid.cycle, SquareGrid.update_pass, SquareGrid.step_pass,
    List.length_append, List.length_zipWith, List.length_drop, List.length_map,
    List.length_range]
  omega

/-- Witness for C4 amended on a concrete 2x1 grid. -/
theorem buffer_lengths_through_cycle_witness :
    (SquareGrid.step_pass (fun (c : Nat) (_ : neumann.Neighbors Nat) => (c, ()))
        (SquareGrid.mk 2 1 [3, 4] [])).cells.length = 2 ∧
    (SquareGrid.step_pass (fun (c : Nat) (_ : neumann.Neighbors Nat) => (c, ()))
        (SquareGrid.mk 2 1 [3, 4] [])).diffs.length = 2 ∧
    (SquareGrid.cycle (fun (c : Nat) (_ : neumann.Neighbors Nat) => (c, ()))
        (fun _ d _ => d) (SquareGrid.mk 2 1 [3, 4] [])).cells.length = 2 ∧
    (SquareGrid.cycle (fun (c : Nat) (_ : neumann.Neighbors Nat) => (c, ()))
        (fun _ d _ => d) (SquareGrid.mk 2 1 [3, 4] [])).diffs = [] :=
  buffer_lengths_through_cycle Nat Nat
    (fun c _ => (c, ())) (fun _ d _ => d) (SquareGrid.mk 2 1 [3, 4] [])
    (by decide)

/-! ## C6: the Rule adapter and one adapted cycle -/

/-- C6: the blanket `impl Sim for T: Rule` (neumann.rs lines 135-156)
returns `(rule(cell.clone(), neighbors), no_move)` from `step` and
replaces the cell with the diff in `update`; consequently one `cycle()`
under the adapter maps every cell to `rule` applied to its old state and
its old neighborhood (`from_grid_coord` of the pre-cycle cell buffer). -/
theorem rule_adapter_cycle (C : Type) [Inhabited C]
    (r : C → neumann.Neighbors C → C) (c0 : C) (n0 : neumann.Neighbors C)
    (d0 : C) (u : Unit) (g : SquareGrid C C)
    (hlen : g.cells.length = g.size) :
    rule_step r c0 n0 = (r c0 n0, ()) ∧
    rule_update c0 d0 u = d0 ∧
    (SquareGrid.cycle (rule_step r) rule_update g).cells
      = (List.range g.size).map
          (fun i => r (g.cells.getD i default) (SquareGrid.from_grid_coord g i)) := by
  refine ⟨rfl, rfl, ?_⟩
  have hdiffs : (SquareGrid.step_pass (rule_step r) g).diffs
      = (List.range g.size).map
          (fun i => r (g.cells.getD i default) (SquareGrid.from_grid_coord g i)) := by
    simp only [SquareGrid.step_pass]
    apply List.map_congr_left
    intro i hi
    rw [List.mem_range] at hi
    show r (g.get_cell (g.size + i)) _ = _
    rw [get_cell_center C C g i hi hlen]
    rfl
  have hcells : (SquareGrid.cycle (rule_step r) rule_update g).cells
      = List.zipWith (fun c d => rule_update c d ()) g.cells
          (SquareGrid.step_pass (rule_step r) g).diffs
        ++ g.cells.drop (SquareGrid.step_pass (rule_step r) g).diffs.length := rfl
  rw [hcells, hdiffs]
  have hdlen : ((List.range g.size).map
      (fun i => r (g.cells.getD i default) (SquareGrid.from_grid_coord g i))).length
      = g.size := by simp
  rw [list_drop_of_length_le g.cells _ (by omega), List.append_nil]
  have hzip : List.zipWith (fun (c d : C) => rule_update c d ()) g.cells
      ((List.range g.size).map
        (fun i => r (g.cells.getD i default) (SquareGrid.from_grid_coord g i)))
      = List.zipWith (fun (_ d : C) => d) g.cells
          ((List.range g.size).map
            (fun i => r (g.cells.getD i default) (SquareGrid.from_grid_coord g i))) := by
    simp only [rule_update]
  rw [hzip, list_zipWith_snd _ _ (by omega)]

/-- Witness for C6 on a concrete 2x2 grid with the rule that adds the
right neighbor to the cell. -/
theorem rule_adapter_cycle_witness :
    rule_step (fun (c : Nat) (n : neumann.Neighbors Nat) => c + n.right) 5
        (neumann.Neighbors.mk 1 2 3 4 6 7 8 9)
      = ((fun (c : Nat) (n : neumann.Neighbors Nat) => c + n.right) 5
          (neumann.Neighbors.mk 1 2 3 4 6 7 8 9), ()) ∧
    rule_update (5 : Nat) (7 : Nat) () = 7 ∧
    (SquareGrid.cycle
        (rule_step (fun (c : Nat) (n : neumann.Neighbors Nat) => c + n.right))
        rule_update (SquareGrid.mk 2 2 [1, 2, 3, 4] [])).cells
      = (List.range (SquareGrid.mk 2 2 [1, 2, 3, 4] ([] : List Nat)).size).map
          (fun i => (fun (c : Nat) (n : neumann.Neighbors Nat) => c + n.right)
            ((SquareGrid.mk 2 2 [1, 2, 3, 4] ([] : List Nat)).cells.getD i default)
            (SquareGrid.from_grid_coord
              (SquareGrid.mk 2 2 [1, 2, 3, 4] ([] : List Nat)) i)) :=
  rule_adapter_cycle Nat (fun c n => c + n.right) 5
    (neumann.Neighbors.mk 1 2 3 4 6 7 8 9) 7 ()
    (SquareGrid.mk 2 2 [1, 2, 3, 4] []) (by decide)

/-! ## C7: cycle is a step pass then an update pass -/

/-- C7: `cycle()` (neumann.rs lines 175-184) is the sequential composition
of the step pass and the update pass.  The step pass leaves every cell
unchanged, produces a diff buffer of length `size` whose slot `i` holds
the diff computed for index `i`, and reads only the cell buffer and the
dimensions (grids agreeing on those produce identical diff buffers); the
update pass then rewrites cell `i` using diff slot `i`.  The barrier is
the composition itself: every diff exists before any cell is updated. -/
theorem cycle_two_phase (C D : Type) [Inhabited C] [Inhabited D]
    (stepf : C → neumann.Neighbors C → D × Unit) (updf : C → D → Unit → C)
    (g g2 : SquareGrid C D) (i : Nat)
    (hlen : g.cells.length = g.size) (hi : i < g.size)
    (hc : g2.cells = g.cells) (hw : g2.width = g.width)
    (hh : g2.height = g.height) :
    SquareGrid.cycle stepf updf g
      = SquareGrid.update_pass updf (SquareGrid.step_pass stepf g) ∧
    (SquareGrid.step_pass stepf g).cells = g.cells ∧
    (SquareGrid.step_pass stepf g).diffs.length = g.size ∧
    (SquareGrid.step_pass stepf g).diffs.getD i default
      = (SquareGrid.step_cell stepf g i).1 ∧
    (SquareGrid.step_pass stepf g2).diffs = (SquareGrid.step_pass stepf g).diffs ∧
    (SquareGrid.cycle stepf updf g).cells.getD i default
      = updf (g.cells.getD i default)
          ((SquareGrid.step_pass stepf g).diffs.getD i default) () := by
  refine ⟨rfl, rfl, by simp [SquareGrid.step_pass], ?_, ?_, ?_⟩
  · simp only [SquareGrid.step_pass]
    exact list_getD_map_range _ _ _ hi _
  · obtain ⟨w1, h1, c1, d1⟩ := g
    obtain ⟨w2, h2, c2, d2⟩ := g2
    simp only at hc hw hh
    subst hc
    subst hw
    subst hh
    rfl
  · have hcells : (SquareGrid.cycle stepf updf g).cells
        = List.zipWith (fun c d => updf c d ()) g.cells
            (SquareGrid.step_pass stepf g).diffs
          ++ g.cells.drop (SquareGrid.step_pass stepf g).diffs.length := rfl
    have hdlen : (SquareGrid.step_pass stepf g).diffs.length = g.size := by
      simp [SquareGrid.step_pass]
    rw [hcells, list_drop_of_length_le g.cells _ (by omega), List.append_nil,
      list_zipWith_getD _ _ _ i (by omega) (by omega) default default default]

/-- Witness for C7 on a concrete 2x2 grid at index 3, with a second grid
agreeing on cells and dimensions but holding stale diffs. -/
theorem cycle_two_phase_witness :
    SquareGrid.cycle (fun (c : Nat) (n : neumann.Neighbors Nat) => (c + n.up, ()))
        (fun c d _ => c * 100 + d) (SquareGrid.mk 2 2 [1, 2, 3, 4] [])
      = SquareGrid.update_pass (fun c d _ => c * 100 + d)
          (SquareGrid.step_pass
            (fun (c : Nat) (n : neumann.Neighbors Nat) => (c + n.up, ()))
            (SquareGrid.mk 2 2 [1, 2, 3, 4] [])) ∧
    (SquareGrid.step_pass
        (fun (c : Nat) (n : neumann.Neighbors Nat) => (c + n.up, ()))
        (SquareGrid.mk 2 2 [1, 2, 3, 4] [])).cells = [1, 2, 3, 4] ∧
    (SquareGrid.step_pass
        (fun (c : Nat) (n : neumann.Neighbors Nat) => (c + n.up, ()))
        (SquareGrid.mk 2 2 [1, 2, 3, 4] [])).diffs.length
      = (SquareGrid.mk 2 2 [1, 2, 3, 4] ([] : List Nat)).size ∧
    (SquareGrid.step_pass
        (fun (c : Nat) (n : neumann.Neighbors Nat) => (c + n.up, ()))
        (SquareGrid.mk 2 2 [1, 2, 3, 4] [])).diffs.getD 3 default
      = (SquareGrid.step_cell
          (fun (c : Nat) (n : neumann.Neighbors Nat) => (c + n.up, ()))
          (SquareGrid.mk 2 2 [1, 2, 3, 4] []) 3).1 ∧
    (SquareGrid.step_pass
        (fun (c : Nat) (n : neumann.Neighbors Nat) => (c + n.up, ()))
        (SquareGrid.mk 2 2 [1, 2, 3, 4] [99, 98, 97, 96])).diffs
      = (SquareGrid.step_pass
          (fun (c : Nat) (n : neumann.Neighbors Nat) => (c + n.up, ()))
          (SquareGrid.mk 2 2 [1, 2, 3, 4] [])).diffs ∧
    (SquareGrid.cycle
        (fun (c : Nat) (n : neumann.Neighbors Nat) => (c + n.up, ()))
        (fun c d _ => c * 100 + d) (SquareGrid.mk 2 2 [1, 2, 3, 4] [])).cells.getD 3 default
      = (fun c d _ => c * 100 + d) ([1, 2, 3, 4].getD 3 default)
          ((SquareGrid.step_pass
            (fun (c : Nat) (n : neumann.Neighbors Nat) => (c + n.up, ()))
            (SquareGrid.mk 2 2 [1, 2, 3, 4] [])).diffs.getD 3 default) () :=
  cycle_two_phase Nat Nat (fun c n => (c + n.up, ())) (fun c d _ => c * 100 + d)
    (SquareGrid.mk 2 2 [1, 2, 3, 4] [])
    (SquareGrid.mk 2 2 [1, 2, 3, 4] [99, 98, 97, 96]) 3
    (by decide) (by decide) (by decide) (by decide) (by decide)

/-! ## C3: determinism of the parallel phases

Rayon executes each phase as a fork-join over `size` disjoint units of
work: unit `i` writes only slot `i` of the output buffer and reads only
buffers no unit of the same phase writes.  Any thread interleaving is
therefore linearizable to some order in which the slot writes land, so we
model a phase execution by the list of indices in write order
(duplicates and arbitrary permutations allowed) and prove the result is
the same for every order covering `0..size` — hence for every thread
count. -/

/-- A phase execution: perform the per-index writes `buf[i] := f i` in the
given order. -/
def write_pass (f : Nat → A) (order : List Nat) (buf : List A) : List A :=
  order.foldl (fun b i => b.set i (f i)) buf

/-- An order is a valid execution of a phase over `n` units when it stays
in range and every unit executes. -/
def valid_order (n : Nat) (order : List Nat) : Prop :=
  (∀ k ∈ order, k < n) ∧ ∀ j ∈ List.range n, j ∈ order

instance (n : Nat) (order : List Nat) : Decidable (valid_order n order) := by
  unfold valid_order
  infer_instance

/-- The step phase under an explicit write order: collect the per-index
diffs into a fresh buffer (the source's parallel `collect`). -/
def SquareGrid.step_sched [Inhabited C] [Inhabited D]
    (stepf : C → neumann.Neighbors C → D × Unit) (g : SquareGrid C D)
    (order : List Nat) : SquareGrid C D :=
  { g with
      diffs := write_pass (fun i => (SquareGrid.step_cell stepf g i).1) order
        (List.replicate g.size default) }

/-- The update phase under an explicit write order: each unit `i` holds
the only `&mut` reference to cell `i`, so it reads its cell's pre-phase
value and its diff and writes slot `i`; the diff buffer is left swapped
out (empty). -/
def SquareGrid.update_sched [Inhabited C] [Inhabited D]
    (updf : C → D → Unit → C) (g : SquareGrid C D) (order : List Nat) :
    SquareGrid C D :=
  { g with
      cells := write_pass
        (fun i => updf (g.cells.getD i default) (g.diffs.getD i default) ())
        order g.cells
      diffs := [] }

/-- Run `cycle()` repeatedly, each cycle under a pair of write orders
(step order, update order). -/
def SquareGrid.run_sched [Inhabited C] [Inhabited D]
    (stepf : C → neumann.Neighbors C → D × Unit) (updf : C → D → Unit → C)
    (g : SquareGrid C D) (scheds : List (List Nat × List Nat)) :
    SquareGrid C D :=
  scheds.foldl
    (fun g p => SquareGrid.update_sched updf (SquareGrid.step_sched stepf g p.1) p.2)
    g

theorem write_pass_length (f : Nat → A) (order : List Nat) (buf : List A) :
    (write_pass f order buf).length = buf.length := by
  induction order generalizing buf with
  | nil => rfl
  | cons i o ih =>
    show (write_pass f o (buf.set i (f i))).length = buf.length
    rw [ih, List.length_set]

theorem write_pass_getD [Inhabited A] (f : Nat → A) (order : List Nat)
    (buf : List A) (hb : ∀ k ∈ order, k < buf.length) (j : Nat)
    (hj : j < buf.length) :
    (write_pass f order buf).getD j default
      = if j ∈ order then f j else buf.getD j default := by
  induction order generalizing buf with
  | nil => simp [write_pass]
  | cons i o ih =>
    have hib : i < buf.length := hb i (List.mem_cons_self i o)
    show (write_pass f o (buf.set i (f i))).getD j default = _
    rw [ih (buf.set i (f i))
      (fun k hk => by rw [List.length_set]; exact hb k (List.mem_cons_of_mem i hk))
      (by rw [List.length_set]; exact hj)]
    by_cases hjo : j ∈ o
    · simp [hjo, List.mem_cons]
    · by_cases hji : j = i
      · subst hji
        simp only [hjo, if_false, List.mem_cons, or_false, if_pos rfl,
          eq_self_iff_true, true_or, if_true]
        rw [List.getD_eq_getElem?_getD, List.getElem?_set_self hib]
        rfl
      · have hnotc : ¬ j ∈ i :: o := by
          rw [List.mem_cons]
          push_neg
          exact ⟨hji, hjo⟩
        simp only [hjo, if_false, hnotc]
        rw [List.getD_eq_getElem?_getD, List.getElem?_set_ne (Ne.symm hji),
          ← List.getD_eq_getElem?_getD]

theorem list_ext_getD (A : Type) [Inhabited A] (l1 l2 : List A)
    (hlen : l1.length = l2.length)
    (h : ∀ j, j < l1.length → l1.getD j default = l2.getD j default) :
    l1 = l2 := by
  apply List.ext_getElem hlen
  intro i h1 h2
  have hg := h i h1
  rwa [List.getD_eq_getElem _ _ h1, List.getD_eq_getElem _ _ h2] at hg

theorem valid_order_mem (n : Nat) (order : List Nat) (hv : valid_order n order)
    (j : Nat) (hj : j < n) : j ∈ order :=
  hv.2 j (List.mem_range.mpr hj)

/-- A valid step order produces exactly the sequential step pass. -/
theorem step_sched_eq (C D : Type) [Inhabited C] [Inhabited D]
    (stepf : C → neumann.Neighbors C → D × Unit) (g : SquareGrid C D)
    (order : List Nat) (hv : valid_order g.size order) :
    SquareGrid.step_sched stepf g order = SquareGrid.step_pass stepf g := by
  unfold SquareGrid.step_sched SquareGrid.step_pass
  congr 1
  apply list_ext_getD
  · rw [write_pass_length, List.length_replicate]
    simp
  · intro j hj
    rw [write_pass_length, List.length_replicate] at hj
    rw [write_pass_getD _ _ _
        (fun k hk => by rw [List.length_replicate]; exact hv.1 k hk) j
        (by rw [List.length_replicate]; exact hj),
      if_pos (valid_order_mem g.size order hv j hj),
      list_getD_map_range _ _ _ hj]

/-- A valid update order produces exactly the sequential update pass. -/
theorem update_sched_eq (C D : Type) [Inhabited C] [Inhabited D]
    (updf : C → D → Unit → C) (g : SquareGrid C D) (order : List Nat)
    (hv : valid_order g.size order) (hc : g.cells.length = g.size)
    (hd : g.diffs.length = g.size) :
    SquareGrid.update_sched updf g order = SquareGrid.update_pass updf g := by
  unfold SquareGrid.update_sched SquareGrid.update_pass
  congr 1
  apply list_ext_getD
  · rw [write_pass_length, List.length_append, List.length_zipWith,
      List.length_drop]
    omega
  · intro j hj
    rw [write_pass_length] at hj
    rw [write_pass_getD _ _ _ (fun k hk => by rw [hc]; exact hv.1 k hk) j hj,
      if_pos (valid_order_mem g.size order hv j (by omega)),
      list_drop_of_length_le g.cells _ (by omega), List.append_nil,
      list_zipWith_getD _ _ _ j hj (by omega) default default default]

theorem cycle_cells_length (C D : Type) [Inhabited C]
    (stepf : C → neumann.Neighbors C → D × Unit) (updf : C → D → Unit → C)
    (g : SquareGrid C D) (hc : g.cells.length = g.size) :
    (SquareGrid.cycle stepf updf g).cells.length
      = (SquareGrid.cycle stepf updf g).size := by
  show (SquareGrid.cycle stepf updf g).cells.length = g.size
  simp only [SquareGrid.cycle, SquareGrid.update_pass, SquareGrid.step_pass,
    List.length_append, List.length_zipWith, List.length_drop, List.length_map,
    List.length_range]
  omega

/-- A run under valid schedules is the iterated sequential cycle. -/
theorem run_sched_eq_cycles (C D : Type) [Inhabited C] [Inhabited D]
    (stepf : C → neumann.Neighbors C → D × Unit) (updf : C → D → Unit → C)
    (g : SquareGrid C D) (scheds : List (List Nat × List Nat))
    (hc : g.cells.length = g.size)
    (hv : ∀ p ∈ scheds, valid_order g.size p.1 ∧ valid_order g.size p.2) :
    SquareGrid.run_sched stepf updf g scheds
      = (SquareGrid.cycle stepf updf)^[scheds.length] g := by
  induction scheds generalizing g with
  | nil => rfl
  | cons p rest ih =>
    have hp := hv p (List.mem_cons_self p rest)
    have hone : SquareGrid.update_sched updf
        (SquareGrid.step_sched stepf g p.1) p.2 = SquareGrid.cycle stepf updf g := by
      rw [step_sched_eq C D stepf g p.1 hp.1]
      exact update_sched_eq C D updf (SquareGrid.step_pass stepf g) p.2 hp.2 hc
        (by simp [SquareGrid.step_pass, SquareGrid.size])
    show SquareGrid.run_sched stepf updf
        (SquareGrid.update_sched updf (SquareGrid.step_sched stepf g p.1) p.2)
        rest = _
    rw [hone,
      ih (SquareGrid.cycle stepf updf g)
        (cycle_cells_length C D stepf updf g hc)
        (fun q hq => hv q (List.mem_cons_of_mem p hq))]
    exact (Function.iterate_succ_apply (SquareGrid.cycle stepf updf)
      rest.length g).symm

/-- The cycle's output does not depend on the incoming diff buffer: the
step pass overwrites it wholesale before the update pass reads it. -/
theorem cycle_diffs_irrel (C D : Type) [Inhabited C]
    (stepf : C → neumann.Neighbors C → D × Unit) (updf : C → D → Unit → C)
    (w h : Nat) (cells : List C) (d1 d2 : List D) :
    SquareGrid.cycle stepf updf (SquareGrid.mk w h cells d1)
      = SquareGrid.cycle stepf updf (SquareGrid.mk w h cells d2) := rfl

theorem cycleN_cells_eq (C D : Type) [Inhabited C]
    (stepf : C → neumann.Neighbors C → D × Unit) (updf : C → D → Unit → C)
    (w h : Nat) (cells : List C) (d1 d2 : List D) (n : Nat) :
    ((SquareGrid.cycle stepf updf)^[n] (SquareGrid.mk w h cells d1)).cells
      = ((SquareGrid.cycle stepf updf)^[n] (SquareGrid.mk w h cells d2)).cells := by
  cases n with
  | zero => rfl
  | succ m =>
    rw [Function.iterate_succ_apply, Function.iterate_succ_apply,
      cycle_diffs_irrel C D stepf updf w h cells d1 d2]

/-- C3: running `cycle()` is deterministic.  Two grids with identical
dimensions and identical initial cell buffers, run for the same number of
cycles under the same rule but under arbitrary (and different) valid
write orders for every step and update phase — modelling any number of
worker threads and any interleaving of the per-slot writes — end with
identical cell buffers. -/
theorem cycle_schedule_deterministic (C D : Type) [Inhabited C] [Inhabited D]
    (stepf : C → neumann.Neighbors C → D × Unit) (updf : C → D → Unit → C)
    (w h : Nat) (cells : List C) (d1 d2 : List D)
    (scheds1 scheds2 : List (List Nat × List Nat))
    (hlen : cells.length = w * h)
    (hN : scheds1.length = scheds2.length)
    (hv1 : ∀ p ∈ scheds1, valid_order (w * h) p.1 ∧ valid_order (w * h) p.2)
    (hv2 : ∀ p ∈ scheds2, valid_order (w * h) p.1 ∧ valid_order (w * h) p.2) :
    (SquareGrid.run_sched stepf updf (SquareGrid.mk w h cells d1) scheds1).cells
      = (SquareGrid.run_sched stepf updf (SquareGrid.mk w h cells d2) scheds2).cells := by
  rw [run_sched_eq_cycles C D stepf updf (SquareGrid.mk w h cells d1) scheds1 hlen hv1,
    run_sched_eq_cycles C D stepf updf (SquareGrid.mk w h cells d2) scheds2 hlen hv2,
    hN]
  exact cycleN_cells_eq C D stepf updf w h cells d1 d2 scheds2.length

/-- Witness for C3: one cycle on a 2x2 grid under two different write
orders per phase (and different stale diff buffers) gives the same cell
buffer. -/
theorem cycle_schedule_deterministic_witness :
    (SquareGrid.run_sched (fun (c : Nat) (n : neumann.Neighbors Nat) => (c * 10 + n.right, ()))
        (fun _ d _ => d) (SquareGrid.mk 2 2 [1, 2, 3, 4] [])
        [([0, 1, 2, 3], [3, 2, 1, 0])]).cells
      = (SquareGrid.run_sched (fun (c : Nat) (n : neumann.Neighbors Nat) => (c * 10 + n.right, ()))
          (fun _ d _ => d) (SquareGrid.mk 2 2 [1, 2, 3, 4] [7, 7, 7, 7])
          [([2, 3, 0, 1], [0, 0, 1, 2, 3])]).cells :=
  cycle_schedule_deterministic Nat Nat
    (fun c n => (c * 10 + n.right, ())) (fun _ d _ => d)
    2 2 [1, 2, 3, 4] [] [7, 7, 7, 7]
    [([0, 1, 2, 3], [3, 2, 1, 0])] [([2, 3, 0, 1], [0, 0, 1, 2, 3])]
    (by decide) (by decide) (by decide) (by decide)
